import Mathlib

/-!
Shallow embedding of the deterministic file-hierarchy generator
(`src/generate.ts` and the `SeededRandom` engine it uses) together with the
verifier and delete operation, and proofs about them.

JavaScript semantics notes used throughout:
* a JS number is an IEEE-754 binary64 value; `state += 0x6d2b79f5` is a float
  addition and is NOT masked to 32 bits, so the engine state accumulates
  unboundedly (exactly while it stays within the 2^53 significand range,
  rounded to nearest, ties to even, beyond it);
* every bitwise operator (`^`, `|`, `>>>`, `>>`, `Math.imul`) first converts
  its operands to 32-bit integers, i.e. works on the operand's value mod 2^32.
All values appearing here are integer-valued doubles, so the float behaviour
is modelled exactly on ℤ/ℕ.
-/

/-- Modulus of JavaScript's 32-bit integer conversions, 2^32. -/
def M32 : ℕ := 4294967296

/-- The Mulberry32 additive constant `0x6d2b79f5` from `nextUint32`. -/
def mulberryDelta : ℕ := 1831565813

/-- Floor base-2 logarithm with structural fuel (so that kernel reduction
works on concrete values); `fuel = n` always suffices, since at most
`log2 n + 1 ≤ n` halvings are needed. -/
def log2Aux : ℕ → ℕ → ℕ
  | 0, _ => 0
  | fuel + 1, n => if n < 2 then 0 else log2Aux fuel (n / 2) + 1

/-- Floor logarithm: `log2c n = ⌊log₂ n⌋` for `n ≥ 1`. -/
def log2c (n : ℕ) : ℕ := log2Aux n n

/-- The value of a nonnegative integer-valued IEEE-754 binary64 result:
integers up to 2^53 are exact; larger integers are rounded to the nearest
representable value (a multiple of the unit in the last place, `2^(e-52)`
for a value in binade `e`), ties to the value with even significand. -/
def roundDouble (n : ℕ) : ℕ :=
  if n < 2 ^ 53 then n
  else
    let u := 2 ^ (log2c n - 52)
    let q := n / u
    let r := n % u
    if 2 * r < u then q * u
    else if u < 2 * r then (q + 1) * u
    else if q % 2 = 0 then q * u else (q + 1) * u

/-- JavaScript `+` on integer-valued doubles: the exact integer sum, rounded
to the nearest representable binary64 value.  Models `this.state += 0x6d2b79f5`
in `SeededRandom.nextUint32`. -/
def jsAdd (a b : ℤ) : ℤ :=
  let s := a + b
  if s < 0 then -(roundDouble s.natAbs : ℤ) else (roundDouble s.natAbs : ℤ)

/-- JavaScript `ToUint32`: the operand's value mod 2^32. -/
def toUint32 (t : ℤ) : ℕ := (t % (M32 : ℤ)).toNat

/-- JavaScript `ToInt32`: the operand's value mod 2^32, taken in
[-2^31, 2^31). -/
def toInt32 (n : ℕ) : ℤ :=
  if n % M32 < 2 ^ 31 then (n % M32 : ℤ) else (n % M32 : ℤ) - (M32 : ℤ)

/-- The mixing pipeline of `SeededRandom.nextUint32` applied to the (already
updated) state value: `t = state`, then
`t = Math.imul(t ^ (t >>> 15), t | 1)`,
`t ^= t + Math.imul(t ^ (t >>> 7), t | 61)`, and the returned
`(t ^ (t >>> 14)) >>> 0`.  All bit operations act on the value mod 2^32;
`Math.imul` is multiplication mod 2^32; the inner `+` is exact (both operands
are 32-bit values, far below 2^53). -/
def mulberryMix (s : ℕ) : ℕ :=
  let t0 := s % M32
  let t1 := ((t0 ^^^ (t0 >>> 15)) * (t0 ||| 1)) % M32
  let t2 := t1 ^^^ ((t1 + ((t1 ^^^ (t1 >>> 7)) * (t1 ||| 61)) % M32) % M32)
  t2 ^^^ (t2 >>> 14)

/-- One call of `SeededRandom.nextUint32` from engine state `s`: the new
state (`state += 0x6d2b79f5`, an unmasked float addition) and the returned
32-bit value. -/
def nextUint32 (s : ℤ) : ℤ × ℕ :=
  let s' := jsAdd s (mulberryDelta : ℤ)
  (s', mulberryMix (toUint32 s'))

/-- Repeated draws: `n` successive `nextUint32` calls from state `s`, as the
list of returned values and the final state. -/
def drawsFrom (s : ℤ) : ℕ → List ℕ × ℤ
  | 0 => ([], s)
  | n + 1 =>
    let d := nextUint32 s
    let rest := drawsFrom d.1 n
    (d.2 :: rest.1, rest.2)

-- sanity: first draw from seed 0xdeadbeef (cross-checked against the JS code)
example : (nextUint32 (3735928559 : ℤ)).2 = 4043151706 := by decide
example : (nextUint32 (0 : ℤ)).2 = 1144304738 := by decide

/-- JavaScript `buffer.writeUInt32LE(v, _)`: the four little-endian bytes of
a 32-bit value. -/
def u32ToLEBytes (v : ℕ) : List ℕ :=
  [v % 256, v / 256 % 256, v / 65536 % 256, v / 16777216 % 256]

/-- Little-endian serialization of a list of 32-bit draws. -/
def leBytes (vs : List ℕ) : List ℕ := vs.flatMap u32ToLEBytes

/-- Model of `SeededRandom.fillBuffer` on a buffer of length `len`, in engine
state `s`: `len / 4` full draws are written little-endian, then a trailing
group of `len % 4` bytes is taken from the low-order bytes of one more draw
(`(lastValue >> (i * 8)) & 0xff`; the sign-propagating shift cannot reach the
low 24 bits, so byte `i` is bits `8i..8i+7` of the draw).  Returns the bytes
written and the final engine state. -/
def fillBuffer (len : ℕ) (s : ℤ) : List ℕ × ℤ :=
  let q := len / 4
  let r := len % 4
  let full := drawsFrom s q
  if r = 0 then (leBytes full.1, full.2)
  else
    let d := nextUint32 full.2
    (leBytes full.1 ++ (u32ToLEBytes d.2).take r, d.1)

/-- Sequential `fillBuffer` calls on buffers of the given lengths, threading
one engine through all of them; the concatenated bytes and the final state. -/
def fillChunks (ls : List ℕ) (s : ℤ) : List ℕ × ℤ :=
  match ls with
  | [] => ([], s)
  | L :: rest =>
    let b := fillBuffer L s
    let bs := fillChunks rest b.2
    (b.1 ++ bs.1, bs.2)

/-- Write chunk size of `writeRandomFile`: 64 KiB. -/
def WRITE_CHUNK_SIZE : ℕ := 65536

/-- File size: 2 MiB per file. -/
def FILE_SIZE_BYTES : ℕ := 2097152

/-- The write loop of `writeRandomFile`: while bytes remain, fill a chunk of
`min WRITE_CHUNK_SIZE remaining` bytes from the engine and append it. -/
def writeChunks (s : ℤ) (remaining : ℕ) : List ℕ × ℤ :=
  if h : remaining = 0 then ([], s)
  else
    let c := min WRITE_CHUNK_SIZE remaining
    let b := fillBuffer c s
    let rest := writeChunks b.2 (remaining - c)
    (b.1 ++ rest.1, rest.2)
termination_by remaining
decreasing_by
  have : 0 < min WRITE_CHUNK_SIZE remaining := by
    simp [WRITE_CHUNK_SIZE]
    omega
  omega

/-- Model of `writeRandomFile(filePath, seed, size)`: the bytes written by
a fresh engine seeded with `seed`, streamed in 64 KiB chunks. -/
def writeRandomFile (seed : ℤ) (size : ℕ) : List ℕ :=
  (writeChunks seed size).1

/-- Master seed: `MASTER_SEED = 0xdeadbeef`. -/
def MASTER_SEED : ℕ := 3735928559

/-- Level-2 fan-out. -/
def LEVEL_2_DIRS : ℕ := 10

/-- Level-3 fan-out. -/
def LEVEL_3_DIRS : ℕ := 10

/-- Files per leaf directory. -/
def FILES_PER_LEAF : ℕ := 5

/-- The 32-bit pattern `MASTER_SEED ^ (l1 << 24) ^ (l2 << 16) ^ (l3 << 8) ^ f`
(each shift operand converted to 32 bits, as JavaScript's `<<` and `^` do). -/
def unsignedFileSeed (l1 l2 l3 f : ℕ) : ℕ :=
  MASTER_SEED ^^^ (l1 <<< 24) % M32 ^^^ (l2 <<< 16) % M32 ^^^ (l3 <<< 8) % M32
    ^^^ f % M32

/-- Model of `getFileSeed`: the JavaScript `^` chain returns an Int32, the XOR
pattern interpreted as a signed 32-bit value. -/
def getFileSeed (l1 l2 l3 f : ℕ) : ℤ :=
  toInt32 (unsignedFileSeed l1 l2 l3 f)

/-- The path `path.join(baseDir, dir_<l1>, sub_<l2>, leaf_<l3>,
data_<f>.bin)`. -/
def filePath (baseDir : String) (l1 l2 l3 f : ℕ) : String :=
  baseDir ++ "/dir_" ++ Nat.repr l1 ++ "/sub_" ++ Nat.repr l2 ++ "/leaf_" ++
    Nat.repr l3 ++ "/data_" ++ Nat.repr f ++ ".bin"

/-- The sequence of (path, content) pairs written by
`generateFileHierarchy(baseDir, sizeGb)`: nested loops over
`l1 < sizeGb`, `l2 < LEVEL_2_DIRS`, `l3 < LEVEL_3_DIRS`,
`f < FILES_PER_LEAF` (a nonpositive `sizeGb` makes the outer loop run zero
times), each file written by `writeRandomFile` with seed
`getFileSeed l1 l2 l3 f` and size `FILE_SIZE_BYTES`. -/
def generatedFiles (baseDir : String) (sizeGb : ℤ) : List (String × List ℕ) :=
  (List.range sizeGb.toNat).flatMap fun l1 =>
    (List.range LEVEL_2_DIRS).flatMap fun l2 =>
      (List.range LEVEL_3_DIRS).flatMap fun l3 =>
        (List.range FILES_PER_LEAF).map fun f =>
          (filePath baseDir l1 l2 l3 f,
            writeRandomFile (getFileSeed l1 l2 l3 f) FILE_SIZE_BYTES)

/-- Model of `verifyFileHierarchy(baseDir, sizeGb)` over a filesystem given as a
partial map from paths to file contents: for every expected path, the file
must exist (`fs.existsSync`) and its size (`fs.statSync(..).size`, the
content length) must equal `FILE_SIZE_BYTES`; the loop returns `false` at
the first failure and `true` when all checks pass.  Content bytes are never
inspected.  `checkFile` is the per-path body of the loop: `fs.existsSync`
(the map returns a content) and `fs.statSync(..).size === FILE_SIZE_BYTES`
(the content length check). -/
def checkFile (fs : String → Option (List ℕ)) (p : String) : Bool :=
  match fs p with
  | none => false
  | some c => c.length == FILE_SIZE_BYTES

def verifyFileHierarchy (fs : String → Option (List ℕ)) (baseDir : String)
    (sizeGb : ℤ) : Bool :=
  (List.range sizeGb.toNat).all fun l1 =>
    (List.range LEVEL_2_DIRS).all fun l2 =>
      (List.range LEVEL_3_DIRS).all fun l3 =>
        (List.range FILES_PER_LEAF).all fun f =>
          checkFile fs (filePath baseDir l1 l2 l3 f)

/-- Path predicate: `p` is `base` itself or lies beneath it. -/
def underPath (base p : String) : Bool :=
  p == base || p.startsWith (base ++ "/")

/-- Node's `fs.rmSync(p, { recursive, force })` on a filesystem modelled as a
finite list of (path, content) files, modelled from Node's documented
semantics: a missing path is an `ENOENT` error unless `force` is set; a
directory (a path with files beneath it) cannot be removed unless
`recursive` is set; otherwise the path and everything beneath it is
removed. -/
def rmSync (fs : List (String × List ℕ)) (p : String)
    (recursive force : Bool) : Except String (List (String × List ℕ)) :=
  let present := fs.any fun e => underPath p e.1
  let isDir := fs.any fun e => (p ++ "/").isPrefixOf e.1
  if !present then
    if force then Except.ok fs else Except.error "ENOENT"
  else if isDir && !recursive then Except.error "ERR_FS_EISDIR"
  else Except.ok (fs.filter fun e => !underPath p e.1)

/-- Model of `deleteFileHierarchy(baseDir)`:
`fs.rmSync(baseDir, { recursive: true, force: true })`. -/
def deleteFileHierarchy (fs : List (String × List ℕ)) (baseDir : String) :
    Except String (List (String × List ℕ)) :=
  rmSync fs baseDir true true

/-- Modelled from the spec: the reference Mulberry32-style mix function
("the spec's five steps", steps 2-5), with every addition and multiplication
masked to 32 bits. -/
def specMix (state : ℕ) : ℕ :=
  let t := state
  let t1 := ((t ^^^ (t >>> 15)) * (t ||| 1)) % M32
  let t2 := t1 ^^^ ((t1 + ((t1 ^^^ (t1 >>> 7)) * (t1 ||| 61)) % M32) % M32)
  t2 ^^^ (t2 >>> 14)

/-- Modelled from the spec: one draw of the reference engine, step 1
(`state = state + 0x6D2B79F5`, 32-bit wraparound addition) followed by the
mix; returns the new state and the output. -/
def specNext (state : ℕ) : ℕ × ℕ :=
  let s' := (state + mulberryDelta) % M32
  (s', specMix s')

/-- Repeated draws of the reference engine. -/
def specDraws (state : ℕ) : ℕ → List ℕ × ℕ
  | 0 => ([], state)
  | n + 1 =>
    let d := specNext state
    let rest := specDraws d.1 n
    (d.2 :: rest.1, rest.2)

/-- The value returned by the (n+1)-st `nextUint32()` call of an engine
started in state `s` (draw index `n`, 0-based). -/
def jsOutN (s : ℤ) (n : ℕ) : ℕ := (nextUint32 (drawsFrom s n).2).2

/-- The draw-index-`n` output of the reference engine started at `seed`. -/
def specOutN (seed : ℕ) (n : ℕ) : ℕ := (specNext (specDraws seed n).2).2

/-! ### Basic structure of the draw sequence -/

theorem drawsFrom_zero (s : ℤ) : drawsFrom s 0 = ([], s) := rfl

theorem drawsFrom_succ (s : ℤ) (n : ℕ) :
    drawsFrom s (n + 1) =
      ((nextUint32 s).2 :: (drawsFrom (nextUint32 s).1 n).1,
        (drawsFrom (nextUint32 s).1 n).2) := rfl

theorem drawsFrom_add (m n : ℕ) (s : ℤ) :
    drawsFrom s (m + n) =
      ((drawsFrom s m).1 ++ (drawsFrom (drawsFrom s m).2 n).1,
        (drawsFrom (drawsFrom s m).2 n).2) := by
  induction m generalizing s with
  | zero => simp [drawsFrom]
  | succ m ih =>
    have h : m + 1 + n = (m + n) + 1 := by omega
    rw [h, drawsFrom_succ, drawsFrom_succ, ih]
    simp

theorem drawsFrom_length (s : ℤ) (n : ℕ) : (drawsFrom s n).1.length = n := by
  induction n generalizing s with
  | zero => rfl
  | succ n ih => simp [drawsFrom_succ, ih]

/-! ### Exact regime of the floating-point state accumulation -/

theorem roundDouble_eq_of_le {n : ℕ} (h : n ≤ 2 ^ 53) : roundDouble n = n := by
  rcases Nat.lt_or_ge n (2 ^ 53) with h' | h'
  · unfold roundDouble
    rw [if_pos h']
  · have : n = 2 ^ 53 := by omega
    subst this
    decide

theorem jsAdd_exact (a b : ℤ) (h : (a + b).natAbs ≤ 2 ^ 53) :
    jsAdd a b = a + b := by
  show (if a + b < 0 then -(roundDouble (a + b).natAbs : ℤ)
    else (roundDouble (a + b).natAbs : ℤ)) = a + b
  split <;> rw [roundDouble_eq_of_le h] <;> omega

theorem mulberryDelta_val : (mulberryDelta : ℤ) = 1831565813 := rfl

/-- While the running state stays within the exactly-representable range
`≤ 2^53`, the unmasked float accumulation is exact: after `n` draws the state
is literally `s + n * 0x6d2b79f5`. -/
theorem drawsFrom_state_exact (n : ℕ) :
    ∀ s : ℤ, -(2 ^ 32) ≤ s → s + n * (mulberryDelta : ℤ) ≤ 2 ^ 53 →
      (drawsFrom s n).2 = s + n * (mulberryDelta : ℤ) := by
  induction n with
  | zero => intro s _ _; simp [drawsFrom]
  | succ n ih =>
    intro s h1 h2
    rw [mulberryDelta_val] at h2 ⊢
    push_cast at h2 ⊢
    have hstep : (nextUint32 s).1 = s + 1831565813 := by
      show jsAdd s (mulberryDelta : ℤ) = _
      rw [mulberryDelta_val]
      apply jsAdd_exact
      omega
    have hb : s + 1831565813 + (n : ℤ) * (mulberryDelta : ℤ) ≤ 2 ^ 53 := by
      rw [mulberryDelta_val]
      omega
    rw [drawsFrom_succ, hstep, ih (s + 1831565813) (by omega) hb,
      mulberryDelta_val]
    ring

/-- In the exact regime the list of outputs has the masked-reference closed
form. -/
theorem drawsFrom_outputs_exact (n : ℕ) :
    ∀ s : ℤ, -(2 ^ 32) ≤ s → s + n * (mulberryDelta : ℤ) ≤ 2 ^ 53 →
      (drawsFrom s n).1 =
        (List.range n).map
          (fun (k : ℕ) =>
            mulberryMix (toUint32 (s + ((k : ℤ) + 1) * (mulberryDelta : ℤ)))) := by
  induction n with
  | zero => intro s _ _; simp [drawsFrom]
  | succ n ih =>
    intro s h1 h2
    rw [mulberryDelta_val] at h2
    push_cast at h2
    have hstep : (nextUint32 s).1 = s + 1831565813 := by
      show jsAdd s (mulberryDelta : ℤ) = _
      rw [mulberryDelta_val]
      apply jsAdd_exact
      omega
    have hout : (nextUint32 s).2 = mulberryMix (toUint32 (s + 1831565813)) := by
      show mulberryMix (toUint32 (jsAdd s (mulberryDelta : ℤ))) = _
      rw [mulberryDelta_val, jsAdd_exact _ _ (by omega)]
    have hb : s + 1831565813 + (n : ℤ) * (mulberryDelta : ℤ) ≤ 2 ^ 53 := by
      rw [mulberryDelta_val]
      omega
    rw [drawsFrom_succ, hstep]
    have ihh := ih (s + 1831565813) (by omega) hb
    simp only [ihh, List.range_succ_eq_map, List.map_cons, List.map_map]
    refine congr_arg₂ List.cons ?_ ?_
    · rw [hout]
      congr 2
    · apply List.map_congr_left
      intro k _
      simp only [Function.comp_apply]
      congr 2
      rw [mulberryDelta_val]
      push_cast
      ring

/-- In the exact regime the draw-index-`n` output is the mix of the masked
exact state. -/
theorem jsOutN_exact (s : ℤ) (n : ℕ) (h1 : -(2 ^ 32) ≤ s)
    (h2 : s + ((n : ℤ) + 1) * (mulberryDelta : ℤ) ≤ 2 ^ 53) :
    jsOutN s n = mulberryMix (toUint32 (s + ((n : ℤ) + 1) * (mulberryDelta : ℤ))) := by
  rw [mulberryDelta_val] at h2 ⊢
  have hstate : (drawsFrom s n).2 = s + n * (mulberryDelta : ℤ) :=
    drawsFrom_state_exact n s h1 (by rw [mulberryDelta_val]; omega)
  rw [mulberryDelta_val] at hstate
  unfold jsOutN
  rw [hstate]
  show mulberryMix (toUint32 (jsAdd _ _)) = _
  rw [mulberryDelta_val, jsAdd_exact _ _ (by omega)]
  congr 2
  ring

/-! ### The reference engine -/

theorem specDraws_zero (seed : ℕ) : specDraws seed 0 = ([], seed) := rfl

theorem specDraws_succ (seed : ℕ) (n : ℕ) :
    specDraws seed (n + 1) =
      ((specNext seed).2 :: (specDraws (specNext seed).1 n).1,
        (specDraws (specNext seed).1 n).2) := by
  simp only [specDraws]

theorem specNext_fst (seed : ℕ) :
    (specNext seed).1 = (seed + mulberryDelta) % M32 := by
  simp only [specNext]

theorem specNext_snd (seed : ℕ) :
    (specNext seed).2 = specMix ((seed + mulberryDelta) % M32) := by
  simp only [specNext]

theorem specDraws_state (n : ℕ) :
    ∀ seed : ℕ, (specDraws seed (n + 1)).2 = (seed + (n + 1) * mulberryDelta) % M32 := by
  induction n with
  | zero =>
    intro seed
    rw [specDraws_succ]
    simp only [specDraws, specNext_fst]
    rw [Nat.zero_add, Nat.one_mul]
  | succ n ih =>
    intro seed
    rw [specDraws_succ]
    simp only [specNext_fst]
    rw [ih, Nat.mod_add_mod]
    congr 1
    ring

theorem specOutN_eq (seed : ℕ) (n : ℕ) :
    specOutN seed n = specMix ((seed + (n + 1) * mulberryDelta) % M32) := by
  cases n with
  | zero =>
    unfold specOutN
    rw [specDraws_zero, specNext_snd]
    norm_num
  | succ n =>
    unfold specOutN
    rw [specDraws_state, specNext_snd, Nat.mod_add_mod]
    congr 2
    ring

theorem toUint32_natCast (x : ℕ) : toUint32 (x : ℤ) = x % M32 := by
  unfold toUint32 M32
  omega

theorem mulberryMix_eq_specMix (s : ℕ) : mulberryMix s = specMix (s % M32) := by
  simp only [mulberryMix, specMix]

/-! ### C1: nextUint32 versus the spec's masked reference -/

/-- C1 (amended): while the accumulated state stays within the exact range of
binary64 doubles - i.e. for every draw index `n` with
`seed + (n+1) * 0x6d2b79f5 ≤ 2^53`, which covers roughly the first 4.9
million draws - the n-th `nextUint32()` output of an engine constructed with
a 32-bit unsigned seed equals the n-th output of the spec's masked
Mulberry32 reference.  (Determinism of two equally-seeded engines holds
unconditionally, the engine being a pure function of its state; the masked
reference is departed from once the unmasked float state exceeds 2^53, see
the counterexample.) -/
theorem nextUint32_matches_reference (seed n : ℕ) (h1 : seed < 2 ^ 32)
    (h2 : (seed : ℤ) + ((n : ℤ) + 1) * (mulberryDelta : ℤ) ≤ 2 ^ 53) :
    jsOutN (seed : ℤ) n = specOutN seed n := by
  have h0 : -(2 ^ 32 : ℤ) ≤ (seed : ℤ) :=
    le_trans (by norm_num) (Int.natCast_nonneg seed)
  rw [jsOutN_exact _ _ h0 h2, specOutN_eq]
  have hcast : ((seed : ℤ) + ((n : ℤ) + 1) * (mulberryDelta : ℤ)) =
      ((seed + (n + 1) * mulberryDelta : ℕ) : ℤ) := by
    push_cast
    ring
  rw [hcast, toUint32_natCast, mulberryMix_eq_specMix,
    Nat.mod_mod_of_dvd _ dvd_rfl]

theorem nextUint32_matches_reference_witness :
    (3735928559 : ℕ) < 2 ^ 32 ∧
      ((3735928559 : ℕ) : ℤ) + (((7 : ℕ) : ℤ) + 1) * (mulberryDelta : ℤ) ≤ 2 ^ 53 ∧
      jsOutN ((3735928559 : ℕ) : ℤ) 7 = specOutN 3735928559 7 :=
  ⟨by decide, by decide,
    nextUint32_matches_reference 3735928559 7 (by decide) (by decide)⟩

/-- C1 counterexample: with seed 0, at draw index 4917758 the JavaScript
engine (whose `state += 0x6d2b79f5` is an unmasked float addition that
rounds once the state passes 2^53) returns a value different from the
masked reference: 2430946484 versus 3767445004. -/
theorem nextUint32_departs_from_reference :
    jsOutN (0 : ℤ) 4917758 ≠ specOutN 0 4917758 := by
  have hstate : (drawsFrom (0 : ℤ) 4917758).2 =
      (0 : ℤ) + (4917758 : ℕ) * (mulberryDelta : ℤ) :=
    drawsFrom_state_exact 4917758 0 (by decide)
      (by rw [mulberryDelta_val]; decide)
  unfold jsOutN
  rw [hstate, specOutN_eq]
  decide

/-! ### C2: fillBuffer equals truncated little-endian serialization -/

theorem leBytes_append (a b : List ℕ) :
    leBytes (a ++ b) = leBytes a ++ leBytes b := by
  simp [leBytes]

theorem leBytes_length (vs : List ℕ) : (leBytes vs).length = 4 * vs.length := by
  induction vs with
  | nil => rfl
  | cons v vs ih =>
    show (u32ToLEBytes v ++ leBytes vs).length = _
    simp [ih, u32ToLEBytes]
    ring

theorem drawsFrom_one (s : ℤ) :
    drawsFrom s 1 = ([(nextUint32 s).2], (nextUint32 s).1) := rfl

/-- Helper: `fillBuffer` equals truncation of `⌈len/4⌉` serialized draws. -/
theorem fillBuffer_split (len : ℕ) (s : ℤ) :
    fillBuffer len s =
      ((leBytes (drawsFrom s ((len + 3) / 4)).1).take len,
        (drawsFrom s ((len + 3) / 4)).2) := by
  by_cases h : len % 4 = 0
  · have hceil : (len + 3) / 4 = len / 4 := by omega
    have hlen : (leBytes (drawsFrom s (len / 4)).1).length = len := by
      rw [leBytes_length, drawsFrom_length]
      omega
    simp only [fillBuffer, h, if_pos, hceil]
    rw [List.take_of_length_le (le_of_eq hlen)]
  · have hceil : (len + 3) / 4 = len / 4 + 1 := by omega
    rw [hceil]
    simp only [fillBuffer, h, if_neg, if_false]
    rw [drawsFrom_add (len / 4) 1 s, drawsFrom_one, leBytes_append]
    have hlen4 : (leBytes (drawsFrom s (len / 4)).1).length = 4 * (len / 4) := by
      rw [leBytes_length, drawsFrom_length]
    have hr : len - 4 * (len / 4) = len % 4 := by omega
    rw [List.take_append_eq_append_take,
      @List.take_of_length_le _ len (leBytes (drawsFrom s (len / 4)).1)
        (by rw [hlen4]; omega),
      hlen4, hr]
    simp [leBytes]

/-- C2: `fillBuffer` on a buffer of length `L` writes exactly the bytes
obtained by serializing `⌈L/4⌉` successive `nextUint32` draws little-endian
and truncating to `L` bytes (a trailing partial group is the low-order bytes
of one additional draw), and both computations leave the engine in the same
state, namely the one after `⌈L/4⌉` draws. -/
theorem fillBuffer_eq_truncated_draws (len : ℕ) (s : ℤ) :
    fillBuffer len s =
      ((leBytes (drawsFrom s ((len + 3) / 4)).1).take len,
        (drawsFrom s ((len + 3) / 4)).2) :=
  fillBuffer_split len s

/-! ### C6: chunk-size independence of fillBuffer -/

/-- Splitting a fill into a leading chunk whose length is a multiple of 4
followed by the rest is invisible in the output. -/
theorem fillBuffer_add (a b : ℕ) (s : ℤ) (ha : a % 4 = 0) :
    fillBuffer (a + b) s =
      ((fillBuffer a s).1 ++ (fillBuffer b (fillBuffer a s).2).1,
        (fillBuffer b (fillBuffer a s).2).2) := by
  have hm : (a + 3) / 4 = a / 4 := by omega
  have hsum : (a + b + 3) / 4 = a / 4 + (b + 3) / 4 := by omega
  rw [fillBuffer_split (a + b) s, fillBuffer_split a s, hm]
  rw [fillBuffer_split b ((drawsFrom s (a / 4)).2)]
  rw [hsum, drawsFrom_add (a / 4) ((b + 3) / 4) s, leBytes_append]
  have hlen : (leBytes (drawsFrom s (a / 4)).1).length = a := by
    rw [leBytes_length, drawsFrom_length]
    omega
  rw [List.take_append_eq_append_take, hlen]
  rw [@List.take_of_length_le _ (a + b) (leBytes (drawsFrom s (a / 4)).1)
      (by rw [hlen]; omega),
    @List.take_of_length_le _ a (leBytes (drawsFrom s (a / 4)).1)
      (le_of_eq hlen)]
  have hb : a + b - a = b := by omega
  rw [hb]

/-- C6 (amended): filling a sequence of chunks from a single engine is
byte-identical (and state-identical) to one full-size `fillBuffer` call,
provided every chunk except possibly the last has a length divisible by 4
(as the 64 KiB chunks of `writeRandomFile` do).  For a partition with an
interior chunk not divisible by 4 the equality fails, because `fillBuffer`
discards the unused high-order bytes of a trailing partial draw: see the
counterexample. -/
theorem fillChunks_nil (s : ℤ) : fillChunks [] s = ([], s) := rfl

theorem fillChunks_cons (L : ℕ) (rest : List ℕ) (s : ℤ) :
    fillChunks (L :: rest) s =
      ((fillBuffer L s).1 ++ (fillChunks rest (fillBuffer L s).2).1,
        (fillChunks rest (fillBuffer L s).2).2) := rfl

theorem fillBuffer_zero (s : ℤ) : fillBuffer 0 s = ([], s) := rfl

theorem fillBuffer_chunk_independent (ls : List ℕ) (s : ℤ)
    (h : ∀ L ∈ ls.dropLast, L % 4 = 0) :
    fillChunks ls s = fillBuffer ls.sum s := by
  induction ls generalizing s with
  | nil => rw [fillChunks_nil, List.sum_nil, fillBuffer_zero]
  | cons L rest ih =>
    cases rest with
    | nil =>
      rw [fillChunks_cons, fillChunks_nil]
      simp
    | cons M rest2 =>
      have hL : L % 4 = 0 := by
        apply h
        rw [List.dropLast_cons₂]
        exact List.mem_cons_self L _
      have hrest : ∀ x ∈ (M :: rest2).dropLast, x % 4 = 0 := by
        intro x hx
        apply h
        rw [List.dropLast_cons₂]
        exact List.mem_cons_of_mem L hx
      rw [List.sum_cons, fillBuffer_add L (M :: rest2).sum s hL, ← ih _ hrest,
        fillChunks_cons]

theorem fillBuffer_chunk_independent_witness :
    (∀ L ∈ ([4, 2] : List ℕ).dropLast, L % 4 = 0) ∧
      fillChunks [4, 2] (5 : ℤ) = fillBuffer ([4, 2] : List ℕ).sum (5 : ℤ) :=
  ⟨by decide, fillBuffer_chunk_independent [4, 2] 5 (by decide)⟩

/-- C6 counterexample: filling two 1-byte chunks in sequence is not
byte-identical to filling one 2-byte buffer from an equally seeded engine
(state 0): the chunked run yields the low bytes of two distinct draws,
`[98, 55]`, the single run the two low bytes of one draw, `[98, 180]`. -/
theorem fillBuffer_chunk_dependent_counterexample :
    (fillChunks [1, 1] (0 : ℤ)).1 ≠ (fillBuffer ([1, 1] : List ℕ).sum (0 : ℤ)).1 := by
  decide

/-! ### writeRandomFile: the chunked write loop equals one full fill -/

theorem writeChunks_eq (remaining : ℕ) :
    ∀ s : ℤ, writeChunks s remaining = fillBuffer remaining s := by
  induction remaining using Nat.strong_induction_on with
  | _ remaining ih =>
    intro s
    by_cases h0 : remaining = 0
    · subst h0
      rw [writeChunks, dif_pos rfl, fillBuffer_zero]
    · rw [writeChunks, dif_neg h0]
      show ((fillBuffer (min WRITE_CHUNK_SIZE remaining) s).1 ++
          (writeChunks (fillBuffer (min WRITE_CHUNK_SIZE remaining) s).2
            (remaining - min WRITE_CHUNK_SIZE remaining)).1,
        (writeChunks (fillBuffer (min WRITE_CHUNK_SIZE remaining) s).2
            (remaining - min WRITE_CHUNK_SIZE remaining)).2) =
          fillBuffer remaining s
      have hW : WRITE_CHUNK_SIZE = 65536 := rfl
      rcases le_or_lt remaining WRITE_CHUNK_SIZE with hle | hlt
      · rw [min_eq_right hle, Nat.sub_self,
          ih 0 (Nat.pos_of_ne_zero h0) _, fillBuffer_zero]
        simp
      · have hc : min WRITE_CHUNK_SIZE remaining = WRITE_CHUNK_SIZE :=
          min_eq_left (le_of_lt hlt)
        rw [hc, ih (remaining - WRITE_CHUNK_SIZE) (by omega) _]
        have hWmod : WRITE_CHUNK_SIZE % 4 = 0 := by rw [hW]
        have hsplit : remaining = WRITE_CHUNK_SIZE + (remaining - WRITE_CHUNK_SIZE) := by
          omega
        conv_rhs => rw [hsplit]
        rw [fillBuffer_add _ _ _ hWmod]

theorem writeRandomFile_eq (seed : ℤ) (size : ℕ) :
    writeRandomFile seed size = (fillBuffer size seed).1 := by
  unfold writeRandomFile
  rw [writeChunks_eq]

theorem fillBuffer_fst_length (len : ℕ) (s : ℤ) :
    (fillBuffer len s).1.length = len := by
  rw [fillBuffer_split]
  simp only [List.length_take, leBytes_length, drawsFrom_length]
  omega

theorem writeRandomFile_length (seed : ℤ) (size : ℕ) :
    (writeRandomFile seed size).length = size := by
  rw [writeRandomFile_eq, fillBuffer_fst_length]

theorem sum_map_eq_of_all {α : Type} (l : List α) (g : α → ℕ) (c : ℕ)
    (h : ∀ x ∈ l, g x = c) : (l.map g).sum = l.length * c := by
  induction l with
  | nil => simp
  | cons x xs ih =>
    simp only [List.map_cons, List.sum_cons, List.length_cons,
      h x (List.mem_cons_self x xs)]
    rw [ih fun y hy => h y (List.mem_cons_of_mem x hy)]
    ring

/-! ### C3: number and sizes of generated files -/

theorem generate_size (baseDir : String) (sizeGb : ℤ) (h : 1 ≤ sizeGb) :
    (generatedFiles baseDir sizeGb).length = sizeGb.toNat * 10 * 10 * 5 ∧
      (∀ pc ∈ generatedFiles baseDir sizeGb, pc.2.length = 2097152) ∧
      ((generatedFiles baseDir sizeGb).map fun pc => pc.2.length).sum =
        sizeGb.toNat * 1048576000 := by
  have hmem : ∀ pc ∈ generatedFiles baseDir sizeGb, pc.2.length = 2097152 := by
    intro pc hpc
    simp only [generatedFiles, List.mem_flatMap, List.mem_map, List.mem_range] at hpc
    obtain ⟨l1, _, ⟨l2, _, ⟨l3, _, ⟨f, _, rfl⟩⟩⟩⟩ := hpc
    exact writeRandomFile_length _ _
  have hlen : (generatedFiles baseDir sizeGb).length = sizeGb.toNat * 500 := by
    simp [generatedFiles, List.length_flatMap, Function.comp_def, List.map_const',
      List.sum_replicate, smul_eq_mul, LEVEL_2_DIRS, LEVEL_3_DIRS, FILES_PER_LEAF]
  refine ⟨by rw [hlen]; ring, hmem, ?_⟩
  rw [sum_map_eq_of_all _ _ 2097152 hmem, hlen]
  ring

/-- C3 (amended): for `sizeGb ≥ 1`, `generate(baseDir, sizeGb)` creates
exactly `sizeGb × 10 × 10 × 5` files, each of exactly 2 097 152 bytes, so
the total number of bytes produced is exactly `sizeGb × 1 048 576 000`
(`sizeGb × 1000 MiB`) - not `sizeGb × 2^30`: 500 files of 2 MiB are 1000 MiB,
which falls 2^30 − 1 048 576 000 = 25 165 824 bytes short of a GiB per
top-level directory. -/
theorem generate_size_identity (baseDir : String) (sizeGb : ℤ) (h : 1 ≤ sizeGb) :
    (generatedFiles baseDir sizeGb).length = sizeGb.toNat * 10 * 10 * 5 ∧
      (∀ pc ∈ generatedFiles baseDir sizeGb, pc.2.length = 2097152) ∧
      ((generatedFiles baseDir sizeGb).map fun pc => pc.2.length).sum =
        sizeGb.toNat * 1048576000 :=
  generate_size baseDir sizeGb h

theorem generate_size_identity_witness :
    (1 : ℤ) ≤ 1 ∧ (generatedFiles "t" 1).length = (1 : ℤ).toNat * 10 * 10 * 5 :=
  ⟨by decide, (generate_size_identity "t" 1 (by decide)).1⟩

/-- C3 counterexample: at `sizeGb = 1` the generator produces exactly
1 048 576 000 bytes in total, and that is not `1 × 2^30`. -/
theorem generate_total_bytes_counterexample :
    ((generatedFiles "t" 1).map fun pc => pc.2.length).sum = 1048576000 ∧
      (1048576000 : ℕ) ≠ 1 * 2 ^ 30 := by
  constructor
  · have hs := (generate_size "t" 1 (by norm_num)).2.2
    simpa using hs
  · decide

/-! ### C4: per-file content comes from the derived per-file seed -/

theorem toUint32_congr (a b : ℤ) (h : a % (4294967296 : ℤ) = b % 4294967296) :
    toUint32 a = toUint32 b := by
  unfold toUint32
  have hm : (M32 : ℤ) = 4294967296 := rfl
  rw [hm, h]

theorem toInt32_facts (x : ℕ) :
    toInt32 x % (4294967296 : ℤ) = (x : ℤ) % 4294967296 ∧
      -(4294967296 : ℤ) ≤ toInt32 x ∧ toInt32 x ≤ 4294967296 := by
  have hM : M32 = 4294967296 := rfl
  by_cases h : x % M32 < 2 ^ 31
  · unfold toInt32
    rw [if_pos h, hM]
    push_cast
    omega
  · unfold toInt32
    rw [if_neg h, hM]
    push_cast
    omega

theorem unsignedFileSeed_lt (l1 l2 l3 f : ℕ) :
    unsignedFileSeed l1 l2 l3 f < M32 := by
  unfold unsignedFileSeed
  have hM : M32 = 2 ^ 32 := by norm_num [M32]
  rw [hM]
  exact Nat.xor_lt_two_pow
    (Nat.xor_lt_two_pow
      (Nat.xor_lt_two_pow
        (Nat.xor_lt_two_pow (by norm_num [MASTER_SEED])
          (Nat.mod_lt _ (by norm_num)))
        (Nat.mod_lt _ (by norm_num)))
      (Nat.mod_lt _ (by norm_num)))
    (Nat.mod_lt _ (by norm_num))

/-- Outputs within the exact regime depend only on the seed pattern mod 2^32:
the Int32 and Uint32 interpretations of a 32-bit seed generate the same
draws. -/
theorem drawsFrom_outputs_mod (x : ℕ) (hx : x < M32) (n : ℕ)
    (hn : (n : ℤ) * (mulberryDelta : ℤ) + 2 ^ 32 ≤ 2 ^ 53) :
    (drawsFrom (toInt32 x) n).1 = (drawsFrom ((x : ℕ) : ℤ) n).1 := by
  obtain ⟨hmod, hlo, hhi⟩ := toInt32_facts x
  have hM : M32 = 4294967296 := rfl
  rw [hM] at hx
  rw [mulberryDelta_val] at hn
  have hA := drawsFrom_outputs_exact n (toInt32 x) (by norm_num; omega)
    (by rw [mulberryDelta_val]; omega)
  have hB := drawsFrom_outputs_exact n ((x : ℕ) : ℤ)
    (by have hx0 : (0 : ℤ) ≤ (x : ℤ) := by positivity
        norm_num
        omega)
    (by rw [mulberryDelta_val]; omega)
  rw [hA, hB]
  apply List.map_congr_left
  intro k _
  congr 1
  apply toUint32_congr
  rw [mulberryDelta_val]
  omega

theorem fillBuffer_first_byte (len : ℕ) (s : ℤ) (h : 1 ≤ len) :
    (fillBuffer len s).1.getD 0 0 = (nextUint32 s).2 % 256 := by
  rw [fillBuffer_split]
  have hc : (len + 3) / 4 = ((len + 3) / 4 - 1) + 1 := by omega
  rw [hc, drawsFrom_succ]
  obtain ⟨len', rfl⟩ : ∃ len', len = len' + 1 := ⟨len - 1, by omega⟩
  show (List.take (len' + 1)
    (leBytes ((nextUint32 s).2 :: (drawsFrom (nextUint32 s).1 _).1))).getD 0 0 = _
  rw [show leBytes ((nextUint32 s).2 :: (drawsFrom (nextUint32 s).1
      ((len' + 1 + 3) / 4 - 1)).1) =
      (nextUint32 s).2 % 256 :: ((nextUint32 s).2 / 256 % 256 ::
        (nextUint32 s).2 / 65536 % 256 :: (nextUint32 s).2 / 16777216 % 256 ::
        leBytes (drawsFrom (nextUint32 s).1 ((len' + 1 + 3) / 4 - 1)).1) from rfl]
  rw [List.take_succ_cons, List.getD_cons_zero]

theorem jsOutN_zero (s : ℤ) : jsOutN s 0 = (nextUint32 s).2 := rfl

theorem fileContent_pure (l1 l2 l3 f : ℕ) :
    writeRandomFile (getFileSeed l1 l2 l3 f) FILE_SIZE_BYTES =
      leBytes (drawsFrom ((unsignedFileSeed l1 l2 l3 f : ℕ) : ℤ) 524288).1 := by
  rw [writeRandomFile_eq]
  unfold getFileSeed
  rw [fillBuffer_split]
  have hceil : (FILE_SIZE_BYTES + 3) / 4 = 524288 := by norm_num [FILE_SIZE_BYTES]
  rw [hceil,
    drawsFrom_outputs_mod _ (unsignedFileSeed_lt l1 l2 l3 f) 524288
      (by rw [mulberryDelta_val]; norm_num)]
  exact List.take_of_length_le
    (by rw [leBytes_length, drawsFrom_length]; norm_num [FILE_SIZE_BYTES])

/-- C4: for every in-range index tuple, `generate` writes to
`dir_<l1>/sub_<l2>/leaf_<l3>/data_<f>.bin` exactly the byte stream of a
fresh engine seeded with
`0xDEADBEEF XOR (l1 << 24) XOR (l2 << 16) XOR (l3 << 8) XOR f` (the 2 MiB
prefix of its little-endian draw serialization, 524288 draws); and byte 0 of
`dir_0/sub_0/leaf_0/data_0.bin` equals the low byte of the first
`nextUint32()` output of an engine seeded with `0xDEADBEEF`. -/
theorem generated_file_content (baseDir : String) (sizeGb : ℤ) (l1 l2 l3 f : ℕ)
    (h1 : l1 < sizeGb.toNat) (h2 : l2 < 10) (h3 : l3 < 10) (hf : f < 5) :
    (filePath baseDir l1 l2 l3 f,
        leBytes (drawsFrom ((unsignedFileSeed l1 l2 l3 f : ℕ) : ℤ) 524288).1)
      ∈ generatedFiles baseDir sizeGb ∧
      (writeRandomFile (getFileSeed 0 0 0 0) FILE_SIZE_BYTES).getD 0 0 =
        jsOutN ((MASTER_SEED : ℕ) : ℤ) 0 % 256 := by
  constructor
  · rw [← fileContent_pure]
    simp only [generatedFiles, List.mem_flatMap, List.mem_map, List.mem_range]
    exact ⟨l1, h1, l2, by simpa [LEVEL_2_DIRS] using h2, l3,
      by simpa [LEVEL_3_DIRS] using h3, f, by simpa [FILES_PER_LEAF] using hf, rfl⟩
  · rw [writeRandomFile_eq,
      fillBuffer_first_byte _ _ (by norm_num [FILE_SIZE_BYTES])]
    decide

theorem generated_file_content_witness :
    0 < (1 : ℤ).toNat ∧ 0 < 10 ∧ 0 < 10 ∧ 0 < 5 ∧
      ((filePath "t" 0 0 0 0,
          leBytes (drawsFrom ((unsignedFileSeed 0 0 0 0 : ℕ) : ℤ) 524288).1)
        ∈ generatedFiles "t" 1 ∧
        (writeRandomFile (getFileSeed 0 0 0 0) FILE_SIZE_BYTES).getD 0 0 =
          jsOutN ((MASTER_SEED : ℕ) : ℤ) 0 % 256) :=
  ⟨by decide, by decide, by decide, by decide,
    generated_file_content "t" 1 0 0 0 0 (by decide) (by decide) (by decide)
      (by decide)⟩

/-! ### C5, C9, C10: the verifier -/

theorem checkFile_iff (fs : String → Option (List ℕ)) (p : String) :
    checkFile fs p = true ↔ ∃ c, fs p = some c ∧ c.length = 2097152 := by
  unfold checkFile
  cases hc : fs p with
  | none => simp
  | some c => simp [FILE_SIZE_BYTES]

theorem verify_iff (fs : String → Option (List ℕ)) (baseDir : String)
    (sizeGb : ℤ) :
    verifyFileHierarchy fs baseDir sizeGb = true ↔
      ∀ l1 < sizeGb.toNat, ∀ l2 < 10, ∀ l3 < 10, ∀ f < 5,
        ∃ c, fs (filePath baseDir l1 l2 l3 f) = some c ∧ c.length = 2097152 := by
  unfold verifyFileHierarchy
  simp only [List.all_eq_true, List.mem_range, LEVEL_2_DIRS, LEVEL_3_DIRS,
    FILES_PER_LEAF, checkFile_iff]

theorem verify_nonpos (fs : String → Option (List ℕ)) (baseDir : String)
    (sizeGb : ℤ) (h : sizeGb ≤ 0) :
    verifyFileHierarchy fs baseDir sizeGb = true := by
  unfold verifyFileHierarchy
  have h0 : sizeGb.toNat = 0 := by omega
  rw [h0]
  simp

/-- C5: `verify(baseDir, sizeGb)` returns true exactly when every expected
path `dir_<l1>/sub_<l2>/leaf_<l3>/data_<f>.bin` (l1 < sizeGb, l2 < 10,
l3 < 10, f < 5) exists with a content of exactly 2 097 152 bytes; it
returns false when some expected path is absent or has a different size;
and it never compares content bytes against the seeded stream - any content
of the right length passes. -/
theorem verify_structural_size_check (fs : String → Option (List ℕ))
    (baseDir : String) (sizeGb : ℤ) :
    verifyFileHierarchy fs baseDir sizeGb = true ↔
      ∀ l1 < sizeGb.toNat, ∀ l2 < 10, ∀ l3 < 10, ∀ f < 5,
        ∃ c, fs (filePath baseDir l1 l2 l3 f) = some c ∧ c.length = 2097152 :=
  verify_iff fs baseDir sizeGb

theorem verify_structural_size_check_witness :
    verifyFileHierarchy (fun _ => none) "b" 0 = true ↔
      ∀ l1 < (0 : ℤ).toNat, ∀ l2 < 10, ∀ l3 < 10, ∀ f < 5,
        ∃ c, (fun (_ : String) => (none : Option (List ℕ))) (filePath "b" l1 l2 l3 f) = some c ∧
          c.length = 2097152 :=
  verify_structural_size_check (fun _ => none) "b" 0

/-- C9: for every nonpositive `sizeGb` the expected path set is empty (the
outer loop runs zero times), so `verify` returns true regardless of the
filesystem - including when `baseDir` does not exist at all. -/
theorem verify_nonpositive_always_true (fs : String → Option (List ℕ))
    (baseDir : String) (sizeGb : ℤ) (h : sizeGb ≤ 0) :
    verifyFileHierarchy fs baseDir sizeGb = true :=
  verify_nonpos fs baseDir sizeGb h

theorem verify_nonpositive_always_true_witness :
    (-1 : ℤ) ≤ 0 ∧ verifyFileHierarchy (fun _ => none) "b" (-1) = true :=
  ⟨by decide, verify_nonpositive_always_true (fun _ => none) "b" (-1) (by decide)⟩

/-- C10: `verify` examines only the expected path set: whenever every
expected path exists with exactly 2 097 152 bytes, it returns true, no
matter what else the filesystem contains anywhere under `baseDir` (the map
is unconstrained outside the expected paths). -/
theorem verify_ignores_extra_files (fs : String → Option (List ℕ))
    (baseDir : String) (sizeGb : ℤ)
    (h : ∀ l1 < sizeGb.toNat, ∀ l2 < 10, ∀ l3 < 10, ∀ f < 5,
      ∃ c, fs (filePath baseDir l1 l2 l3 f) = some c ∧ c.length = 2097152) :
    verifyFileHierarchy fs baseDir sizeGb = true :=
  (verify_iff fs baseDir sizeGb).mpr h


/-- All-2MiB-zeros content used by the C10 witness. -/
def zeros2MiB : List ℕ := List.replicate 2097152 0

theorem verify_ignores_extra_files_witness :
    verifyFileHierarchy (fun _ => some zeros2MiB) "b" 1 = true :=
  verify_ignores_extra_files (fun _ => some zeros2MiB) "b" 1
    (fun l1 _ l2 _ l3 _ f _ =>
      ⟨zeros2MiB, rfl, by rw [zeros2MiB, List.length_replicate]⟩)

/-! ### C7: delete removes the tree and tolerates an absent baseDir -/

/-- C7: `delete(baseDir)` - `fs.rmSync(baseDir, recursive and force set)` -
always succeeds: it returns a filesystem in which nothing at or beneath
`baseDir` remains, and when nothing at or beneath `baseDir` exists in the
first place it is a no-op (returns the filesystem unchanged) rather than an
error. -/
theorem delete_removes_tree_tolerates_absent (fs : List (String × List ℕ))
    (baseDir : String) :
    ∃ fs', deleteFileHierarchy fs baseDir = Except.ok fs' ∧
      (∀ e ∈ fs', underPath baseDir e.1 = false) ∧
      ((∀ e ∈ fs, underPath baseDir e.1 = false) → fs' = fs) := by
  by_cases hp : fs.any (fun e => underPath baseDir e.1) = true
  · refine ⟨fs.filter fun e => !underPath baseDir e.1, ?_, ?_, ?_⟩
    · simp only [deleteFileHierarchy, rmSync, hp]
      simp
    · intro e he
      rw [List.mem_filter] at he
      simpa using he.2
    · intro h
      apply List.filter_eq_self.mpr
      intro e he
      rw [h e he]
      rfl
  · refine ⟨fs, ?_, ?_, fun _ => rfl⟩
    · have hfalse : fs.any (fun e => underPath baseDir e.1) = false :=
        Bool.eq_false_iff.mpr hp
      simp only [deleteFileHierarchy, rmSync, hfalse]
      simp
    · intro e he
      have hfalse : fs.any (fun e => underPath baseDir e.1) = false :=
        Bool.eq_false_iff.mpr hp
      have hne := List.any_eq_false.mp hfalse e he
      exact Bool.eq_false_iff.mpr hne

theorem delete_removes_tree_tolerates_absent_witness :
    ∃ fs', deleteFileHierarchy [("a/x", [0]), ("b/y", [1])] "a" = Except.ok fs' ∧
      (∀ e ∈ fs', underPath "a" e.1 = false) ∧
      ((∀ e ∈ [("a/x", [0]), ("b/y", [1])], underPath "a" e.1 = false) →
        fs' = [("a/x", [0]), ("b/y", [1])]) :=
  delete_removes_tree_tolerates_absent [("a/x", [0]), ("b/y", [1])] "a"

/-! ### C8: injectivity of the per-file seed derivation -/

theorem shiftLeft_xor_of_lt (a b k : ℕ) (hb : b < 2 ^ k) :
    (a <<< k) ^^^ b = 2 ^ k * a + b := by
  apply Nat.eq_of_testBit_eq
  intro i
  rw [Nat.testBit_xor, Nat.testBit_shiftLeft, Nat.testBit_mul_pow_two_add a hb i]
  by_cases h : i < k
  · have hge : ¬(i ≥ k) := by omega
    simp [h, hge]
  · have hik : i ≥ k := by omega
    have hbf : b.testBit i = false :=
      Nat.testBit_lt_two_pow
        (lt_of_lt_of_le hb (Nat.pow_le_pow_right (by norm_num) hik))
    simp [h, hik, hbf]

theorem toInt32_inj (x y : ℕ) (hx : x < M32) (hy : y < M32)
    (h : toInt32 x = toInt32 y) : x = y := by
  unfold toInt32 at h
  rw [Nat.mod_eq_of_lt hx, Nat.mod_eq_of_lt hy] at h
  have hMn : M32 = 4294967296 := rfl
  have hMz : (M32 : ℤ) = 4294967296 := rfl
  rw [hMn] at hx hy
  rw [hMz] at h
  by_cases h1 : x < 2 ^ 31 <;> by_cases h2 : y < 2 ^ 31
  · rw [if_pos h1, if_pos h2] at h
    omega
  · rw [if_pos h1, if_neg h2] at h
    omega
  · rw [if_neg h1, if_pos h2] at h
    omega
  · rw [if_neg h1, if_neg h2] at h
    omega

theorem unsignedFileSeed_eq_sum (l1 l2 l3 f : ℕ)
    (h1 : l1 < 256) (h2 : l2 < 256) (h3 : l3 < 256) (hf : f < 256) :
    unsignedFileSeed l1 l2 l3 f =
      MASTER_SEED ^^^ (2 ^ 24 * l1 + (2 ^ 16 * l2 + (2 ^ 8 * l3 + f))) := by
  unfold unsignedFileSeed
  have hM : M32 = 4294967296 := rfl
  have e1 : (l1 <<< 24) % M32 = l1 <<< 24 :=
    Nat.mod_eq_of_lt (by rw [Nat.shiftLeft_eq, hM]; omega)
  have e2 : (l2 <<< 16) % M32 = l2 <<< 16 :=
    Nat.mod_eq_of_lt (by rw [Nat.shiftLeft_eq, hM]; omega)
  have e3 : (l3 <<< 8) % M32 = l3 <<< 8 :=
    Nat.mod_eq_of_lt (by rw [Nat.shiftLeft_eq, hM]; omega)
  have e4 : f % M32 = f := Nat.mod_eq_of_lt (by rw [hM]; omega)
  rw [e1, e2, e3, e4, Nat.xor_assoc, Nat.xor_assoc, Nat.xor_assoc,
    Nat.xor_right_inj]
  rw [shiftLeft_xor_of_lt l3 f 8 (by omega)]
  rw [shiftLeft_xor_of_lt l2 (2 ^ 8 * l3 + f) 16 (by omega)]
  rw [shiftLeft_xor_of_lt l1 (2 ^ 16 * l2 + (2 ^ 8 * l3 + f)) 24 (by omega)]

/-- C8: for every `n ≤ 10`, the per-file seed derivation is injective on the
valid index ranges: two tuples `(l1, l2, l3, f)` and `(l1', l2', l3', f')`
with `l1, l1' < n`, `l2, l2' < 10`, `l3, l3' < 10`, `f, f' < 5` that receive
the same derived seed are equal. -/
theorem getFileSeed_injective (n : ℕ) (hn : n ≤ 10)
    (l1 l2 l3 f l1' l2' l3' f' : ℕ)
    (h1 : l1 < n) (h2 : l2 < 10) (h3 : l3 < 10) (hf : f < 5)
    (h1' : l1' < n) (h2' : l2' < 10) (h3' : l3' < 10) (hf' : f' < 5)
    (heq : getFileSeed l1 l2 l3 f = getFileSeed l1' l2' l3' f') :
    l1 = l1' ∧ l2 = l2' ∧ l3 = l3' ∧ f = f' := by
  unfold getFileSeed at heq
  have hu : unsignedFileSeed l1 l2 l3 f = unsignedFileSeed l1' l2' l3' f' :=
    toInt32_inj _ _ (unsignedFileSeed_lt _ _ _ _) (unsignedFileSeed_lt _ _ _ _)
      heq
  rw [unsignedFileSeed_eq_sum l1 l2 l3 f (by omega) (by omega) (by omega)
      (by omega),
    unsignedFileSeed_eq_sum l1' l2' l3' f' (by omega) (by omega) (by omega)
      (by omega), Nat.xor_right_inj] at hu
  refine ⟨?_, ?_, ?_, ?_⟩ <;> omega

theorem getFileSeed_injective_witness :
    (10 : ℕ) ≤ 10 ∧ ((1 : ℕ) = 1 ∧ (2 : ℕ) = 2 ∧ (3 : ℕ) = 3 ∧ (4 : ℕ) = 4) :=
  ⟨by decide,
    getFileSeed_injective 10 (by decide) 1 2 3 4 1 2 3 4 (by decide) (by decide)
      (by decide) (by decide) (by decide) (by decide) (by decide) (by decide)
      (by decide)⟩
